import Mathlib

/-!
Verification of the MetaWin meta-analysis computation engine.

This file gives a shallow embedding, in Lean, of the statistical core of the
MetaWin application (modules MetaWinAnalysisFunctions.py and
MetaWinPubBiasFunctions.py) and proves, or refutes, a collection of
specification claims about it.

Modelling conventions:
* Python floats are modelled as exact rationals; the only transcendental the
  relevant code paths use, math.sqrt, is threaded through as an explicit
  function parameter where it can matter, and real square roots are used
  (over the reals) for the rank-correlation statistics, which are never
  evaluated numerically here.
* numpy arrays become Lists, or functions from row indices to rationals
  together with explicit row-index lists when the source indexes by row.
* Recursive Python functions over the nested-group tree are modelled with an
  explicit fuel argument (structural recursion on the fuel); the Python
  recursion depth is bounded by the number of nesting levels, so any fuel of
  at least that size gives the exact behaviour of the source.
* scipy special functions (normal cdf and quantile) are modelled as opaque
  inputs: the value the library returns is taken as a parameter, with its
  mathematically guaranteed range recorded in the theorem statements.
-/

namespace MetaWin

/-- Python built-in round: nearest integer, ties to even (banker rounding). -/
def pyround (x : ℚ) : ℤ :=
  let f : ℤ := ⌊x⌋
  let r : ℚ := x - f
  if r < 1/2 then f
  else if 1/2 < r then f + 1
  else if f % 2 = 0 then f else f + 1

/-- numpy.sign on rationals. -/
def qsign (x : ℚ) : ℚ :=
  if x < 0 then -1 else if 0 < x then 1 else 0

/-- numpy.min over a nonempty list (0 for the empty list, never reached). -/
def listMin (l : List ℚ) : ℚ := l.foldl min (l.headD 0)

/-- numpy.max over a nonempty list (0 for the empty list, never reached). -/
def listMax (l : List ℚ) : ℚ := l.foldl max (l.headD 0)

/-! ### StatPrimitives: mean_effect_var_and_q, median_effect, pooled variances
Source: MetaWinAnalysisFunctions.py lines 233-300. -/

/-- Sum of effect times weight, list form (sum_ew in mean_effect_var_and_q). -/
def sumEWList (e w : List ℚ) : ℚ := ((e.zip w).map (fun p => p.1 * p.2)).sum

/-- Weighted mean mean_e = sum_ew / sum_w from mean_effect_var_and_q. -/
def meanEList (e w : List ℚ) : ℚ := sumEWList e w / w.sum

/-- Q statistic qt = sum of w * (e - mean)^2 from mean_effect_var_and_q. -/
def qtOfList (e w : List ℚ) : ℚ :=
  ((e.zip w).map (fun p => p.2 * (p.1 - meanEList e w) ^ 2)).sum

/-- pooled_var_no_structure: (qt - df) / (sum_w - sum_w2/sum_w), clamped at 0
(the source returns max(pooled, 0)). -/
def pooled_var_no_structure (qt sum_w sum_w2 df : ℚ) : ℚ :=
  max ((qt - df) / (sum_w - sum_w2 / sum_w)) 0

/-- pooled_var_group_structure: numerator qe - (n - g_cnt), denominator summed
over per-group (sum_w, sum_w2) pairs, clamped at 0. -/
def pooled_var_group_structure (qe : ℚ) (group_w_sums : List (ℚ × ℚ))
    (n g_cnt : ℕ) : ℚ :=
  let denom := (group_w_sums.map (fun g => g.1 - g.2 / g.1)).sum
  max ((qe - ((n : ℚ) - (g_cnt : ℚ))) / denom) 0

/-- pooled_var_regression_structure with the d_sum loop over j < n. -/
def pooled_var_regression_structure (qe : ℚ) (n : ℕ)
    (sum_w sum_wx sum_wx2 : ℚ) (x_data w_data : ℕ → ℚ) : ℚ :=
  let d_sum := ((List.range n).map (fun j =>
    w_data j ^ 2 * ((sum_wx2 - 2 * x_data j * sum_wx + x_data j ^ 2 * sum_w) /
      (sum_w * sum_wx2 - sum_wx ^ 2)))).sum
  max ((qe - ((n : ℚ) - 2)) / (sum_w - d_sum)) 0

/-- Matrix inverse as used by numpy.linalg.inv, written with the adjugate so
that it stays computable; it agrees with the true inverse whenever the matrix
is invertible (numpy raises LinAlgError otherwise). -/
def matInv {m : ℕ} (a : Matrix (Fin m) (Fin m) ℚ) : Matrix (Fin m) (Fin m) ℚ :=
  (a.det)⁻¹ • a.adjugate

/-- pooled_var_glm: numerator qe - (n - np - 1) with np the predictor count
excluding the intercept, denominator trace(w) - trace(w x (xt w x)^-1 xt w),
clamped at 0. -/
def pooled_var_glm {n p : ℕ} (qe : ℚ) (w : Matrix (Fin n) (Fin n) ℚ)
    (x : Matrix (Fin n) (Fin p) ℚ) : ℚ :=
  let np : ℚ := (p : ℚ) - 1
  let numer := qe - ((n : ℚ) - np - 1)
  let xt := x.transpose
  let xtwxinv := matInv (xt * w * x)
  let val := w * x * xtwxinv * xt * w
  max (numer / (Matrix.trace w - Matrix.trace val)) 0

/-- median_effect walk: the source sets rsum to the first weight and, while
rsum < midp, moves right accumulating weights; here the accumulated weight is
subtracted from the remaining midpoint instead, which is the same comparison.
On the exact boundary it averages the current and the next sorted effect. -/
def medianOfSorted (midp : ℚ) : List (ℚ × ℚ) → ℚ
  | [] => 0
  | (e, w) :: rest =>
    if w < midp then medianOfSorted (midp - w) rest
    else if w = midp then (e + (rest.headD (0, 0)).1) / 2
    else e

/-- Sort effect/weight pairs ascending by effect (the argsort on column 0 in
median_effect; tied effects give the same returned value whatever order the
unstable numpy sort picks, so a stable insertion sort is a faithful model). -/
def sortByEffect (pairs : List (ℚ × ℚ)) : List (ℚ × ℚ) :=
  pairs.insertionSort (fun a b => a.1 ≤ b.1)

/-- median_effect from MetaWinAnalysisFunctions.py lines 283-300. -/
def median_effect (e w : List ℚ) : ℚ :=
  medianOfSorted (w.sum / 2) (sortByEffect (e.zip w))

/-- Accumulated weight of the first k sorted pairs. -/
def wpre (l : List (ℚ × ℚ)) (k : ℕ) : ℚ := ((l.take k).map Prod.snd).sum

theorem wpre_cons (p : ℚ × ℚ) (rest : List (ℚ × ℚ)) (k : ℕ) :
    wpre (p :: rest) (k + 1) = p.2 + wpre rest k := by
  simp [wpre, List.take_succ_cons]

theorem medianOfSorted_boundary :
    ∀ (l : List (ℚ × ℚ)) (k : ℕ) (midp : ℚ),
      (∀ j < k, wpre l (j + 1) < midp) → wpre l (k + 1) = midp →
      k + 1 < l.length →
      medianOfSorted midp l = ((l.getD k (0, 0)).1 + (l.getD (k + 1) (0, 0)).1) / 2 := by
  intro l
  induction l with
  | nil => intro k midp _ _ hlen; simp at hlen
  | cons p rest ih =>
    intro k midp hlow hhit hlen
    match k with
    | 0 =>
      have h1 : wpre (p :: rest) 1 = p.2 := by simp [wpre]
      have hpm : p.2 = midp := by rw [← h1, hhit]
      match rest, hlen with
      | q :: rest2, _ =>
        show medianOfSorted midp ((p.1, p.2) :: q :: rest2) = _
        simp only [medianOfSorted]
        rw [if_neg (by rw [hpm]; exact lt_irrefl _), if_pos hpm]
        simp
    | k + 1 =>
      have h0 : wpre (p :: rest) 1 < midp := hlow 0 (Nat.succ_pos _)
      have hw : p.2 < midp := by simpa [wpre] using h0
      show medianOfSorted midp ((p.1, p.2) :: rest) = _
      simp only [medianOfSorted]
      rw [if_pos hw]
      have := ih k (midp - p.2)
        (fun j hj => by
          have := hlow (j + 1) (Nat.succ_lt_succ hj)
          rw [wpre_cons] at this; linarith)
        (by rw [wpre_cons] at hhit; linarith)
        (by simpa using Nat.lt_of_succ_lt_succ hlen)
      simpa using this

theorem medianOfSorted_passed :
    ∀ (l : List (ℚ × ℚ)) (k : ℕ) (midp : ℚ),
      (∀ j < k, wpre l (j + 1) < midp) → midp < wpre l (k + 1) →
      k < l.length →
      medianOfSorted midp l = (l.getD k (0, 0)).1 := by
  intro l
  induction l with
  | nil => intro k midp _ _ hlen; simp at hlen
  | cons p rest ih =>
    intro k midp hlow hpass hlen
    match k with
    | 0 =>
      have hw : midp < p.2 := by simpa [wpre] using hpass
      show medianOfSorted midp ((p.1, p.2) :: rest) = _
      simp only [medianOfSorted]
      rw [if_neg (by linarith), if_neg (by intro h; rw [h] at hw; exact lt_irrefl _ hw)]
      simp
    | k + 1 =>
      have h0 : wpre (p :: rest) 1 < midp := hlow 0 (Nat.succ_pos _)
      have hw : p.2 < midp := by simpa [wpre] using h0
      show medianOfSorted midp ((p.1, p.2) :: rest) = _
      simp only [medianOfSorted]
      rw [if_pos hw]
      have := ih k (midp - p.2)
        (fun j hj => by
          have := hlow (j + 1) (Nat.succ_lt_succ hj)
          rw [wpre_cons] at this; linarith)
        (by rw [wpre_cons] at hpass; linarith)
        (by simpa using Nat.lt_of_succ_lt_succ hlen)
      simpa using this

/-- Claim C7: every one of the four pooled-variance estimators (no structure,
grouped, regression, GLM) returns a value that is at least 0 for every input,
including inputs whose numerator is negative, because each one clamps its
quotient with max(.., 0). -/
theorem C7_pooled_var_nonneg :
    (∀ qt sum_w sum_w2 df : ℚ, 0 ≤ pooled_var_no_structure qt sum_w sum_w2 df)
    ∧ (∀ (qe : ℚ) (gws : List (ℚ × ℚ)) (n g_cnt : ℕ),
        0 ≤ pooled_var_group_structure qe gws n g_cnt)
    ∧ (∀ (qe : ℚ) (n : ℕ) (sw swx swx2 : ℚ) (x w : ℕ → ℚ),
        0 ≤ pooled_var_regression_structure qe n sw swx swx2 x w)
    ∧ (∀ (n p : ℕ) (qe : ℚ) (w : Matrix (Fin n) (Fin n) ℚ)
        (x : Matrix (Fin n) (Fin p) ℚ), 0 ≤ pooled_var_glm qe w x) := by
  refine ⟨?_, ?_, ?_, ?_⟩ <;> intros <;> exact le_max_right _ 0

/-- Claim C8: the weighted median sorts effects ascending and accumulates
weights up to half the total; hitting the midpoint exactly at an element
boundary averages that effect with the next sorted effect, otherwise the
effect at which the midpoint was passed is returned; on effects [1,2,3,4]
with unit weights the result is 2.5. -/
theorem C8_weighted_median (e w : List ℚ) :
    ((∀ k, (∀ j < k, wpre (sortByEffect (e.zip w)) (j + 1) < w.sum / 2) →
        wpre (sortByEffect (e.zip w)) (k + 1) = w.sum / 2 →
        k + 1 < (sortByEffect (e.zip w)).length →
        median_effect e w
          = (((sortByEffect (e.zip w)).getD k (0, 0)).1
             + ((sortByEffect (e.zip w)).getD (k + 1) (0, 0)).1) / 2)
      ∧ (∀ k, (∀ j < k, wpre (sortByEffect (e.zip w)) (j + 1) < w.sum / 2) →
          w.sum / 2 < wpre (sortByEffect (e.zip w)) (k + 1) →
          k < (sortByEffect (e.zip w)).length →
          median_effect e w = ((sortByEffect (e.zip w)).getD k (0, 0)).1))
    ∧ median_effect [1, 2, 3, 4] [1, 1, 1, 1] = 5 / 2 := by
  refine ⟨⟨?_, ?_⟩, by
    norm_num [median_effect, medianOfSorted, sortByEffect,
      List.insertionSort, List.orderedInsert]⟩
  · intro k hlow hhit hlen
    exact medianOfSorted_boundary _ k _ hlow hhit hlen
  · intro k hlow hpass hlen
    exact medianOfSorted_passed _ k _ hlow hpass hlen

/-- Witness for C8: the boundary rule applied at effects [1,2,3,4] with unit
weights and k = 1 forces the answer (2+3)/2. -/
theorem C8_weighted_median_witness :
    median_effect [1, 2, 3, 4] [1, 1, 1, 1]
      = (((sortByEffect ([(1 : ℚ), 2, 3, 4].zip [1, 1, 1, 1])).getD 1 (0, 0)).1
         + ((sortByEffect ([(1 : ℚ), 2, 3, 4].zip [1, 1, 1, 1])).getD 2 (0, 0)).1) / 2 :=
  (C8_weighted_median [1, 2, 3, 4] [1, 1, 1, 1]).1.1 1
    (by
      intro j hj
      interval_cases j
      norm_num [wpre, sortByEffect, List.insertionSort, List.orderedInsert])
    (by norm_num [wpre, sortByEffect, List.insertionSort, List.orderedInsert])
    (by norm_num [sortByEffect, List.insertionSort, List.orderedInsert])

/-! ### Grouped meta-analysis (grouped_meta_analysis, lines 704-918)
Valid rows carry a group label; group_names = sorted(set(group_data)) and the
per-group boolean masks [g == group for g in group_data] drive both the
observed per-group statistics and each randomization replicate. -/

/-- group_names = sorted(set(group_data)). -/
def groupNames (gd : List String) : List String :=
  (gd.dedup).insertionSort (fun a b => a ≤ b)

/-- The boolean mask [g == group for g in group_data]. -/
def groupMask (gd : List String) (g : String) : List Bool :=
  gd.map (fun x => x == g)

/-- numpy boolean-mask selection arr[mask]. -/
def maskSelect {α : Type} (xs : List α) (mask : List Bool) : List α :=
  ((xs.zip mask).filter Prod.snd).map Prod.fst

/-- Q_error: the sum over groups of the within-group Q values, with the masks
recomputed from the group labels exactly as in the source loop. -/
def groupQe (eArr wsArr : List ℚ) (gd : List String) : ℚ :=
  ((groupNames gd).map (fun g =>
    qtOfList (maskSelect eArr (groupMask gd g)) (maskSelect wsArr (groupMask gd g)))).sum

/-- Q_model = Q_total - Q_error (line 839). -/
def groupedQm (eArr wsArr : List ℚ) (gd : List String) : ℚ :=
  qtOfList eArr wsArr - groupQe eArr wsArr gd

/-- One randomization replicate of the grouped analysis (lines 859-869): the
effect vector is permuted, the masks are rebuilt from the unchanged group
labels, the weights stay fixed, and the replicate model Q is qt - tmp_qe. -/
def groupedReplicateQm (gd : List String) (wsArr : List ℚ) (qt : ℚ)
    (randE : List ℚ) : ℚ :=
  qt - groupQe randE wsArr gd

theorem maskSelect_length_eq_count :
    ∀ (gd : List String) (e : List ℚ) (g : String), e.length = gd.length →
      (maskSelect e (groupMask gd g)).length = gd.count g := by
  intro gd
  induction gd with
  | nil => intro e g he; simp at he; simp [he, maskSelect, groupMask]
  | cons x gs ih =>
    intro e g he
    match e with
    | a :: es =>
      have hlen : es.length = gs.length := by simpa using he
      by_cases hxg : x == g
      · simp only [maskSelect, groupMask, List.map_cons, List.zip_cons_cons,
          List.filter_cons, hxg, List.count_cons]
        simp only [maskSelect, groupMask] at ih
        simp [ih es g hlen, hxg]
      · simp only [maskSelect, groupMask, List.map_cons, List.zip_cons_cons,
          List.filter_cons, hxg, List.count_cons]
        simp only [maskSelect, groupMask] at ih
        simp [ih es g hlen, hxg]

/-- Claim C10: the sorted distinct group labels partition the valid rows:
every row is selected by the mask of its own label and by no other group
mask, the per-group selected sizes sum to n, and each randomization
replicate recomputes the replicate Q statistic from these same masks and
the fixed weights, with only the effect vector replaced by its permutation. -/
theorem C10_grouped_partition (gd : List String) :
    (∀ r, (hr : r < gd.length) →
        (groupMask gd (gd.get ⟨r, hr⟩)).getD r false = true
        ∧ gd.get ⟨r, hr⟩ ∈ groupNames gd
        ∧ ∀ g ∈ groupNames gd,
            (groupMask gd g).getD r false = true → g = gd.get ⟨r, hr⟩)
    ∧ (∀ e : List ℚ, e.length = gd.length →
        ((groupNames gd).map
          (fun g => (maskSelect e (groupMask gd g)).length)).sum = gd.length)
    ∧ (∀ (wsArr randE : List ℚ) (qt : ℚ),
        groupedReplicateQm gd wsArr qt randE
          = qt - ((groupNames gd).map (fun g =>
              qtOfList (maskSelect randE (groupMask gd g))
                       (maskSelect wsArr (groupMask gd g)))).sum) := by
  refine ⟨?_, ?_, ?_⟩
  · intro r hr
    have hmask : ∀ g : String, (groupMask gd g).getD r false = (gd.get ⟨r, hr⟩ == g) := by
      intro g
      simp [groupMask, List.getD_eq_getElem?_getD, List.getElem?_eq_getElem hr]
    refine ⟨by rw [hmask]; simp, ?_, ?_⟩
    · have : gd.get ⟨r, hr⟩ ∈ gd.dedup := List.mem_dedup.mpr (List.get_mem gd r hr)
      exact ((List.perm_insertionSort _ gd.dedup).mem_iff).mpr this
    · intro g _ hg
      rw [hmask g] at hg
      exact (eq_of_beq hg).symm
  · intro e he
    have hperm : (groupNames gd).Perm gd.dedup := List.perm_insertionSort _ _
    have h1 : ((groupNames gd).map
        (fun g => (maskSelect e (groupMask gd g)).length)).sum
        = ((gd.dedup).map (fun g => (maskSelect e (groupMask gd g)).length)).sum :=
      (hperm.map _).sum_eq
    have h2 : ((gd.dedup).map (fun g => (maskSelect e (groupMask gd g)).length)).sum
        = ((gd.dedup).map (fun g => gd.count g)).sum := by
      congr 1
      exact List.map_congr_left (fun g _ => maskSelect_length_eq_count gd e g he)
    rw [h1, h2]
    exact List.sum_map_count_dedup_eq_length gd
  · intro wsArr randE qt
    rfl

/-- Witness for C10: the partition facts instantiated on three rows in two
groups. -/
theorem C10_grouped_partition_witness :
    ((0 : ℕ) < (["x", "y", "x"] : List String).length)
    ∧ ([(1 : ℚ), 2, 3].length = (["x", "y", "x"] : List String).length)
    ∧ ((groupNames ["x", "y", "x"]).map
        (fun g => (maskSelect [(1 : ℚ), 2, 3] (groupMask ["x", "y", "x"] g)).length)).sum
        = (["x", "y", "x"] : List String).length
    ∧ ["x", "y", "x"].get ⟨0, by decide⟩ ∈ groupNames ["x", "y", "x"] :=
  ⟨by decide, by decide,
   (C10_grouped_partition ["x", "y", "x"]).2.1 [(1 : ℚ), 2, 3] (by decide),
   ((C10_grouped_partition ["x", "y", "x"]).1 0 (by decide)).2.1⟩

/-! ### Regression meta-analysis (calculate_regression_ma_values, lines 1026-1036) -/

/-- calculate_regression_ma_values; returns (qm, qe, b1_slope, b0_intercept,
var_b1, var_b0).  The source computes qm = slope^2/var(slope) and
qe = qt - qm. -/
def calculate_regression_ma_values (n : ℕ) (e w x : ℕ → ℚ)
    (sum_w sum_we qt : ℚ) : ℚ × ℚ × ℚ × ℚ × ℚ × ℚ :=
  let sum_wxe := ((List.range n).map (fun j => w j * x j * e j)).sum
  let sum_wx := ((List.range n).map (fun j => w j * x j)).sum
  let sum_wx2 := ((List.range n).map (fun j => w j * x j ^ 2)).sum
  let b1_slope := (sum_wxe - sum_wx * sum_we / sum_w) / (sum_wx2 - sum_wx ^ 2 / sum_w)
  let b0_intercept := (sum_we - b1_slope * sum_wx) / sum_w
  let var_b1 := 1 / (sum_wx2 - sum_wx ^ 2 / sum_w)
  let var_b0 := 1 / (sum_w - sum_wx ^ 2 / sum_wx2)
  let qm := b1_slope ^ 2 / var_b1
  let qe := qt - qm
  (qm, qe, b1_slope, b0_intercept, var_b1, var_b0)

/-! ### Nested meta-analysis (lines 1461-1817)
Rows are indexed by natural numbers; e and w give the effect and weight of a
row, and gd lists, per row, the group label at each nesting depth.  The tree
of NestedGroup nodes is built by find_next_nested_level; node means and
within-Q values, which the source stores on the node in group_calculations,
are the derived weighted statistics of the node row set. -/

/-- Weight sum over a row-index subset (sum_w of mean_effect_var_and_q applied
to the masked arrays). -/
def sumWRows (w : ℕ → ℚ) (rows : List ℕ) : ℚ := (rows.map w).sum

/-- Effect-times-weight sum over a row-index subset. -/
def sumEWRows (e w : ℕ → ℚ) (rows : List ℕ) : ℚ :=
  (rows.map (fun r => e r * w r)).sum

/-- Weighted mean over a row-index subset (the node mean self.mean). -/
def meanERows (e w : ℕ → ℚ) (rows : List ℕ) : ℚ :=
  sumEWRows e w rows / sumWRows w rows

/-- Within-group Q over a row-index subset (the node value self.qw). -/
def qwRows (e w : ℕ → ℚ) (rows : List ℕ) : ℚ :=
  (rows.map (fun r => w r * (e r - meanERows e w rows) ^ 2)).sum

/-- The recursive nested-group structure (class NestedGroup). -/
inductive NestedGroup : Type where
  | node (name : String) (index : ℕ) (rows : List ℕ) (children : List NestedGroup)

def NestedGroup.name : NestedGroup → String
  | .node nm _ _ _ => nm

def NestedGroup.levelIndex : NestedGroup → ℕ
  | .node _ i _ _ => i

def NestedGroup.rows : NestedGroup → List ℕ
  | .node _ _ rs _ => rs

def NestedGroup.children : NestedGroup → List NestedGroup
  | .node _ _ _ cs => cs

/-- NestedGroup.qm(index, parent_mean, w): at the target depth it sums, over
the node rows, w[r] * (self.mean - parent_mean)^2 and reports one group;
otherwise it recurses into the children passing self.mean down.  The fuel
argument bounds the recursion depth (any fuel at least the tree height gives
the source behaviour). -/
def NestedGroup.qm (e w : ℕ → ℚ) : ℕ → NestedGroup → ℕ → ℚ → ℚ × ℚ
  | 0, _, _, _ => (0, 0)
  | fuel + 1, .node _ i rows cs, idx, parentMean =>
    if idx = i then
      ((rows.map (fun r => w r * (meanERows e w rows - parentMean) ^ 2)).sum, 1)
    else
      let sub := cs.map (fun c => NestedGroup.qm e w fuel c idx (meanERows e w rows))
      ((sub.map Prod.fst).sum, (sub.map Prod.snd).sum)

/-- NestedGroup.qe(index): the within-Q of the nodes at the target depth,
summed with the count of contributing groups. -/
def NestedGroup.qe (e w : ℕ → ℚ) : ℕ → NestedGroup → ℕ → ℚ × ℚ
  | 0, _, _ => (0, 0)
  | fuel + 1, .node _ i rows cs, idx =>
    if i = idx then (qwRows e w rows, 1)
    else
      let sub := cs.map (fun c => NestedGroup.qe e w fuel c idx)
      ((sub.map Prod.fst).sum, (sub.map Prod.snd).sum)

/-- The label of row r at nesting depth i (row[i] in the source; None when out
of range, which well-formed inputs never hit). -/
def rowLabel (gd : List (List String)) (r i : ℕ) : Option String :=
  (gd.get? r).bind (fun row => row.get? i)

/-- Python sorted(set(l)). -/
def pySortedSet (l : List String) : List String :=
  (l.dedup).insertionSort (fun a b => a ≤ b)

/-- Level names for the top call: sorted(set(row[index] for row in gd)). -/
def levelNamesTop (gd : List (List String)) (index : ℕ) : List String :=
  pySortedSet (gd.filterMap (fun row => row.get? index))

/-- Level names under a parent: sorted(set(row[index] for row in gd
if row[index-1] == parent.name)). -/
def levelNamesChild (gd : List (List String)) (index : ℕ)
    (parentName : String) : List String :=
  pySortedSet ((gd.filter (fun row => row.get? (index - 1) == some parentName)).filterMap
    (fun row => row.get? index))

/-- Rows of a top-level group: [r for r, row in enumerate(gd) if
row[index] == name]. -/
def topRowsFor (gd : List (List String)) (index : ℕ) (name : String) : List ℕ :=
  (List.range gd.length).filter (fun r => rowLabel gd r index == some name)

/-- Rows of a nested group: [r for r, row in enumerate(gd) if
row[index-1] == parent.name and row[index] == name and r in
parent.includes_rows]. -/
def childRowsFor (gd : List (List String)) (index : ℕ) (parentName : String)
    (parentRows : List ℕ) (name : String) : List ℕ :=
  (List.range gd.length).filter (fun r =>
    (rowLabel gd r (index - 1) == some parentName)
    && (rowLabel gd r index == some name) && parentRows.contains r)

/-- find_next_nested_level(index, group_data, parent): builds one nesting
level and recurses while index < L - 1, with L the length of the first row.
The fuel argument bounds the recursion; fuel = L suffices. -/
def find_next_nested_level (gd : List (List String)) (L : ℕ) :
    ℕ → ℕ → Option (String × List ℕ) → List NestedGroup
  | 0, _, _ => []
  | fuel + 1, index, parent =>
    let names := match parent with
      | none => levelNamesTop gd index
      | some (pn, _) => levelNamesChild gd index pn
    names.map (fun name =>
      let rows := match parent with
        | none => topRowsFor gd index name
        | some (pn, prs) => childRowsFor gd index pn prs name
      let cs := if index < L - 1 then
          find_next_nested_level gd L fuel (index + 1) (some (name, rows))
        else []
      NestedGroup.node name index rows cs)

/-- The number of nesting levels: len(group_data[0]). -/
def numLevels (gd : List (List String)) : ℕ := (gd.headD []).length

/-- top_level = find_next_nested_level(0, group_data, None). -/
def topLevelOf (gd : List (List String)) : List NestedGroup :=
  find_next_nested_level gd (numLevels gd) (numLevels gd) 0 none

/-- The grand weighted mean mean_e over all n rows. -/
def meanAll (e w : ℕ → ℚ) (n : ℕ) : ℚ := meanERows e w (List.range n)

/-- Q_total over all n rows. -/
def qtAll (e w : ℕ → ℚ) (n : ℕ) : ℚ := qwRows e w (List.range n)

/-- The per-depth model heterogeneity qm of nested_meta_analysis
(lines 1727-1740): the level-i qm values of the top groups, summed, with the
grand mean as the root parent mean. -/
def nestedQmLevel (gd : List (List String)) (e w : ℕ → ℚ) (i : ℕ) : ℚ :=
  ((topLevelOf gd).map (fun t =>
    (NestedGroup.qm e w (numLevels gd) t i (meanAll e w gd.length)).1)).sum

/-- Q_error of nested_meta_analysis (lines 1743-1748): extracted from the
deepest level only. -/
def nestedQe (gd : List (List String)) (e w : ℕ → ℚ) : ℚ :=
  ((topLevelOf gd).map (fun t =>
    (NestedGroup.qe e w (numLevels gd) t (numLevels gd - 1)).1)).sum

/-! ### Proof infrastructure for the nested Q decomposition -/

theorem sumWRows_pos (w : ℕ → ℚ) (hw : ∀ r, 0 < w r) (rows : List ℕ)
    (hne : rows ≠ []) : 0 < sumWRows w rows := by
  apply List.sum_pos
  · intro x hx
    rcases List.mem_map.mp hx with ⟨r, _, rfl⟩
    exact hw r
  · simpa using hne

/-- Within any row set whose mean is its weighted mean, the weighted residual
sum vanishes. -/
theorem sum_w_resid_zero (e w : ℕ → ℚ) (hw : ∀ r, 0 < w r) (rows : List ℕ)
    (hne : rows ≠ []) :
    (rows.map (fun r => w r * (e r - meanERows e w rows))).sum = 0 := by
  have hS : sumWRows w rows ≠ 0 := ne_of_gt (sumWRows_pos w hw rows hne)
  have hexp : (rows.map (fun r => w r * (e r - meanERows e w rows))).sum
      = sumEWRows e w rows + (-(meanERows e w rows)) * sumWRows w rows := by
    have hpt : (rows.map (fun r => w r * (e r - meanERows e w rows))).sum
        = (rows.map (fun r => e r * w r + (-(meanERows e w rows)) * w r)).sum := by
      congr 1
      exact List.map_congr_left (fun r _ => by ring)
    rw [hpt, List.sum_map_add, List.sum_map_mul_left]
    rfl
  rw [hexp, meanERows]
  field_simp

/-- Weighted bias-variance split at one node: the squared deviations from any
parent mean decompose into within-node deviations plus node-mean shift. -/
theorem weighted_sq_decomp (e w : ℕ → ℚ) (hw : ∀ r, 0 < w r) (rows : List ℕ)
    (pm : ℚ) :
    (rows.map (fun r => w r * (e r - pm) ^ 2)).sum
      = (rows.map (fun r => w r * (e r - meanERows e w rows) ^ 2)).sum
        + (rows.map (fun r => w r * (meanERows e w rows - pm) ^ 2)).sum := by
  rcases eq_or_ne rows [] with h | h
  · simp [h]
  · have hzero := sum_w_resid_zero e w hw rows h
    have hpt : (rows.map (fun r => w r * (e r - pm) ^ 2)).sum
        = (rows.map (fun r =>
            (w r * (e r - meanERows e w rows) ^ 2
              + w r * (meanERows e w rows - pm) ^ 2)
            + (2 * (meanERows e w rows - pm))
              * (w r * (e r - meanERows e w rows)))).sum := by
      congr 1
      exact List.map_congr_left (fun r _ => by ring)
    rw [hpt, List.sum_map_add, List.sum_map_add, List.sum_map_mul_left, hzero,
      mul_zero, add_zero]

/-- Finite double sums over lists commute. -/
theorem sum_comm_list {α β : Type} (xs : List α) (ys : List β) (f : α → β → ℚ) :
    (xs.map (fun a => (ys.map (f a)).sum)).sum
      = (ys.map (fun b => (xs.map (fun a => f a b)).sum)).sum := by
  induction xs with
  | nil => simp
  | cons a rest ih =>
    simp only [List.map_cons, List.sum_cons, ih, List.sum_map_add]

/-- Summing a function over a range where all but one index give B, with A at
index i and B i = 0. -/
theorem sum_range_map_ite (L i : ℕ) (A : ℚ) (B : ℕ → ℚ) (hB : B i = 0)
    (hi : i < L) :
    ((List.range L).map (fun j => if j = i then A else B j)).sum
      = A + ((List.range L).map B).sum := by
  induction L with
  | zero => omega
  | succ L ih =>
    rw [List.range_succ]
    simp only [List.map_append, List.sum_append, List.map_cons, List.map_nil,
      List.sum_cons, List.sum_nil, add_zero]
    by_cases h : i = L
    · subst h
      have hnone : ∀ j ∈ List.range i, (if j = i then A else B j) = B j := by
        intro j hj
        rw [if_neg (Nat.ne_of_lt (List.mem_range.mp hj))]
      rw [List.map_congr_left hnone, if_pos rfl, hB]
      ring
    · rw [ih (by omega), if_neg (fun hLi : L = i => h hLi.symm)]
      ring

/-- Sum over a flattened list of row sets. -/
theorem sum_over_flatten (css : List (List ℕ)) (g : ℕ → ℚ) :
    (css.flatten.map g).sum = (css.map (fun rs => (rs.map g).sum)).sum := by
  rw [List.map_flatten, List.sum_flatten, List.map_map]
  rfl

/-- Structural well-formedness of a nested-group node at depth i, as
guaranteed by find_next_nested_level: depths fit below L, nodes at the
deepest level have no children, and the children row sets of the other nodes
partition (as a permutation of index lists) the parent row set. -/
inductive GoodNode (L : ℕ) : ℕ → NestedGroup → Prop where
  | mk {nm : String} {i : ℕ} {rows : List ℕ} {cs : List NestedGroup} :
      i < L →
      (i = L - 1 → cs = []) →
      (i ≠ L - 1 → ((cs.map NestedGroup.rows).flatten).Perm rows) →
      (∀ c ∈ cs, GoodNode L (i + 1) c) →
      GoodNode L i (.node nm i rows cs)

/-- qm probes below the depth of a well-formed node give zero. -/
theorem qm_below_zero (e w : ℕ → ℚ) (L : ℕ) :
    ∀ (t : NestedGroup) (d : ℕ), GoodNode L d t →
      ∀ (i : ℕ), i < d → ∀ (pm : ℚ) (fuel : ℕ),
        (NestedGroup.qm e w fuel t i pm).1 = 0 := by
  intro t d hg
  induction hg with
  | @mk nm d rows cs hiL hleaf hperm hch ih =>
    intro i hi pm fuel
    match fuel with
    | 0 => rfl
    | fuel + 1 =>
      simp only [NestedGroup.qm]
      rw [if_neg (by omega)]
      simp only [List.map_map]
      apply List.sum_eq_zero
      intro x hx
      rcases List.mem_map.mp hx with ⟨c, hc, rfl⟩
      exact ih c hc i (by omega) (meanERows e w rows) fuel

/-- The nested Q decomposition for one well-formed subtree: the model-Q
probes over all depths plus the deepest-level error Q reproduce the weighted
squared deviations of the subtree rows from the parent mean. -/
theorem nested_decomp (e w : ℕ → ℚ) (hw : ∀ r, 0 < w r) (L : ℕ) :
    ∀ (t : NestedGroup) (d : ℕ), GoodNode L d t →
      ∀ (pm : ℚ) (fuel : ℕ), L - d ≤ fuel →
        (((List.range L).map (fun i => (NestedGroup.qm e w fuel t i pm).1)).sum)
          + (NestedGroup.qe e w fuel t (L - 1)).1
        = (t.rows.map (fun r => w r * (e r - pm) ^ 2)).sum := by
  intro t d hg
  induction hg with
  | @mk nm d rows cs hiL hleaf hperm hch ih =>
    intro pm fuel hfuel
    have hfuel1 : 1 ≤ fuel := by omega
    match fuel, hfuel1 with
    | fuel + 1, _ =>
      by_cases hd : d = L - 1
      · -- deepest level: no children, qm hits only at depth d
        have hcs : cs = [] := hleaf hd
        subst hcs
        have hqm : ∀ j, (NestedGroup.qm e w (fuel + 1) (.node nm d rows []) j pm).1
            = if j = d then (rows.map (fun r =>
                w r * (meanERows e w rows - pm) ^ 2)).sum else 0 := by
          intro j
          simp only [NestedGroup.qm]
          by_cases h : j = d <;> simp [h]
        have hqe : (NestedGroup.qe e w (fuel + 1) (.node nm d rows []) (L - 1)).1
            = qwRows e w rows := by
          simp only [NestedGroup.qe]
          rw [if_pos hd]
        rw [List.map_congr_left (fun j _ => hqm j), hqe,
          sum_range_map_ite L d _ (fun _ => (0 : ℚ)) rfl hiL]
        simp only [List.map_const', List.sum_replicate, smul_zero, add_zero,
          NestedGroup.rows]
        rw [weighted_sq_decomp e w hw rows pm, qwRows]
        ring
      · -- inner level: peel the depth-d term, push the rest into the children
        have hqm : ∀ j, (NestedGroup.qm e w (fuel + 1) (.node nm d rows cs) j pm).1
            = if j = d then (rows.map (fun r =>
                w r * (meanERows e w rows - pm) ^ 2)).sum
              else (cs.map (fun c =>
                (NestedGroup.qm e w fuel c j (meanERows e w rows)).1)).sum := by
          intro j
          simp only [NestedGroup.qm]
          by_cases h : j = d
          · simp [h]
          · rw [if_neg h, if_neg h]
            simp only [List.map_map]
            rfl
        have hBzero : (cs.map (fun c =>
            (NestedGroup.qm e w fuel c d (meanERows e w rows)).1)).sum = 0 := by
          apply List.sum_eq_zero
          intro x hx
          rcases List.mem_map.mp hx with ⟨c, hc, rfl⟩
          exact qm_below_zero e w L c (d + 1) (hch c hc) d (by omega) _ fuel
        have hqe : (NestedGroup.qe e w (fuel + 1) (.node nm d rows cs) (L - 1)).1
            = (cs.map (fun c => (NestedGroup.qe e w fuel c (L - 1)).1)).sum := by
          simp only [NestedGroup.qe]
          rw [if_neg hd]
          simp only [List.map_map]
          rfl
        rw [List.map_congr_left (fun j _ => hqm j), hqe,
          sum_range_map_ite L d _ _ hBzero hiL, add_assoc]
        have hswap : (((List.range L).map (fun j => (cs.map (fun c =>
            (NestedGroup.qm e w fuel c j (meanERows e w rows)).1)).sum)).sum)
            + (cs.map (fun c => (NestedGroup.qe e w fuel c (L - 1)).1)).sum
            = (cs.map (fun c =>
                (((List.range L).map (fun j =>
                  (NestedGroup.qm e w fuel c j (meanERows e w rows)).1)).sum)
                + (NestedGroup.qe e w fuel c (L - 1)).1)).sum := by
          rw [List.sum_map_add, sum_comm_list]
        rw [hswap]
        have hchsum : (cs.map (fun c =>
            (((List.range L).map (fun j =>
              (NestedGroup.qm e w fuel c j (meanERows e w rows)).1)).sum)
            + (NestedGroup.qe e w fuel c (L - 1)).1)).sum
            = (cs.map (fun c => (c.rows.map (fun r =>
                w r * (e r - meanERows e w rows) ^ 2)).sum)).sum := by
          congr 1
          apply List.map_congr_left
          intro c hc
          exact ih c hc (meanERows e w rows) fuel (by omega)
        rw [hchsum]
        have hflat : (cs.map (fun c => (c.rows.map (fun r =>
            w r * (e r - meanERows e w rows) ^ 2)).sum)).sum
            = (rows.map (fun r => w r * (e r - meanERows e w rows) ^ 2)).sum := by
          have hmm : (cs.map NestedGroup.rows).map (fun rs => (rs.map (fun r =>
              w r * (e r - meanERows e w rows) ^ 2)).sum)
              = cs.map (fun c => (c.rows.map (fun r =>
                  w r * (e r - meanERows e w rows) ^ 2)).sum) := by
            rw [List.map_map]
            rfl
          rw [← hmm, ← sum_over_flatten]
          exact ((hperm hd).map _).sum_eq
        rw [show (NestedGroup.node nm d rows cs).rows = rows from rfl, hflat,
          weighted_sq_decomp e w hw rows pm]
        ring

/-! ### The built nested forest is well formed -/

theorem rowLabel_isSome (gd : List (List String))
    (hrows : ∀ row ∈ gd, row.length = numLevels gd) (r i : ℕ)
    (hr : r < gd.length) (hi : i < numLevels gd) :
    ∃ nm, rowLabel gd r i = some nm := by
  unfold rowLabel
  rw [List.get?_eq_getElem?, List.getElem?_eq_getElem hr]
  have hlen : (gd[r]).length = numLevels gd := hrows _ (List.getElem_mem hr)
  have hi2 : i < (gd[r]).length := by omega
  exact ⟨gd[r][i], by simp [List.get?_eq_getElem?, List.getElem?_eq_getElem hi2]⟩

theorem rowLabel_getElem (gd : List (List String)) (r i : ℕ) (hr : r < gd.length)
    (nm : String) (hlab : rowLabel gd r i = some nm) :
    gd[r].get? i = some nm := by
  unfold rowLabel at hlab
  rw [List.get?_eq_getElem?, List.getElem?_eq_getElem hr] at hlab
  simpa using hlab

theorem nodup_pySortedSet (l : List String) : (pySortedSet l).Nodup :=
  ((List.perm_insertionSort _ _).nodup_iff).mpr (List.nodup_dedup l)

theorem mem_levelNamesTop (gd : List (List String)) (index r : ℕ) (nm : String)
    (hr : r < gd.length) (hlab : rowLabel gd r index = some nm) :
    nm ∈ levelNamesTop gd index := by
  unfold levelNamesTop pySortedSet
  rw [(List.perm_insertionSort _ _).mem_iff, List.mem_dedup]
  exact List.mem_filterMap.mpr ⟨gd[r], List.getElem_mem hr,
    rowLabel_getElem gd r index hr nm hlab⟩

theorem mem_levelNamesChild (gd : List (List String)) (index r : ℕ)
    (pn nm : String) (hr : r < gd.length)
    (hpar : rowLabel gd r (index - 1) = some pn)
    (hlab : rowLabel gd r index = some nm) :
    nm ∈ levelNamesChild gd index pn := by
  unfold levelNamesChild pySortedSet
  rw [(List.perm_insertionSort _ _).mem_iff, List.mem_dedup]
  apply List.mem_filterMap.mpr
  refine ⟨gd[r], List.mem_filter.mpr ⟨List.getElem_mem hr, ?_⟩,
    rowLabel_getElem gd r index hr nm hlab⟩
  have h2 := rowLabel_getElem gd r (index - 1) hr pn hpar
  rw [List.get?_eq_getElem?] at h2
  simp [h2]

/-- If every element of R carries a key among the (duplicate-free) names,
the per-name filtered sublists of R partition R. -/
theorem filter_partition_perm :
    ∀ (names : List String) (R : List ℕ) (key : ℕ → Option String),
      names.Nodup →
      (∀ r ∈ R, ∃ nm ∈ names, key r = some nm) →
      ((names.map (fun nm => R.filter (fun r => key r == some nm))).flatten).Perm R := by
  intro names
  induction names with
  | nil =>
    intro R key _ hcov
    match R with
    | [] => simp
    | r :: R2 =>
      rcases hcov r (by simp) with ⟨nm, hnm, _⟩
      simp at hnm
  | cons nm rest ih =>
    intro R key hnd hcov
    simp only [List.map_cons, List.flatten_cons]
    have hsplit := List.filter_append_perm (fun r => key r == some nm) R
    have hrest : ∀ nm2 ∈ rest,
        (R.filter (fun r => !(key r == some nm))).filter
            (fun r => key r == some nm2)
          = R.filter (fun r => key r == some nm2) := by
      intro nm2 hnm2
      rw [List.filter_filter]
      apply List.filter_congr
      intro r _
      by_cases h : key r = some nm2
      · have hne : nm2 ≠ nm := by
          intro hEq
          exact (List.nodup_cons.mp hnd).1 (hEq ▸ hnm2)
        simp [h, hne]
      · simp [h]
    have hmap : rest.map (fun nm2 => R.filter (fun r => key r == some nm2))
        = rest.map (fun nm2 => (R.filter (fun r => !(key r == some nm))).filter
            (fun r => key r == some nm2)) :=
      List.map_congr_left (fun nm2 h2 => (hrest nm2 h2).symm)
    rw [hmap]
    have hcov2 : ∀ r ∈ R.filter (fun r => !(key r == some nm)),
        ∃ nm2 ∈ rest, key r = some nm2 := by
      intro r hr
      rcases List.mem_filter.mp hr with ⟨hrR, hne⟩
      rcases hcov r hrR with ⟨nm0, hnm0, hk⟩
      rcases List.mem_cons.mp hnm0 with h | h
      · exfalso
        rw [h] at hk
        simp [hk] at hne
      · exact ⟨nm0, h, hk⟩
    have hperm2 := ih (R.filter (fun r => !(key r == some nm))) key
      (List.nodup_cons.mp hnd).2 hcov2
    exact (List.Perm.append_left _ hperm2).trans hsplit

/-- The rows a nested child group selects out of the whole data set are
exactly the parent rows filtered by the child label. -/
theorem childRowsFor_eq_filter (gd : List (List String)) (index : ℕ)
    (pname : String) (P : ℕ → Bool)
    (hP : ∀ r, P r = true → rowLabel gd r (index - 1) = some pname)
    (name : String) :
    childRowsFor gd index pname ((List.range gd.length).filter P) name
      = ((List.range gd.length).filter P).filter
          (fun r => rowLabel gd r index == some name) := by
  unfold childRowsFor
  rw [List.filter_filter]
  apply List.filter_congr
  intro r hr
  by_cases hp : P r = true
  · have h1 := hP r hp
    have hb1 : (rowLabel gd r (index - 1) == some pname) = true := by simp [h1]
    have hc : ((List.range gd.length).filter P).contains r = true := by
      show List.elem r _ = true
      exact List.elem_iff.mpr (List.mem_filter.mpr ⟨hr, hp⟩)
    rw [hb1, hc, hp]
    cases hB : (rowLabel gd r index == some name) <;> simp
  · have hp2 : P r = false := by
      cases h : P r
      · rfl
      · exact absurd h hp
    have hc : ((List.range gd.length).filter P).contains r = false := by
      show List.elem r _ = false
      cases h : List.elem r ((List.range gd.length).filter P)
      · rfl
      · exact absurd ((List.mem_filter.mp (List.elem_iff.mp h)).2) (by simp [hp2])
    rw [hp2, hc]
    simp

theorem band_left {a b : Bool} (h : (a && b) = true) : a = true := by
  cases a
  · simp at h
  · rfl

/-- Every level built by find_next_nested_level consists of well-formed
nodes whose row sets are label filters, and the level row sets partition the
parent row set (the whole data set at the top). -/
theorem find_level_good (gd : List (List String))
    (hrows : ∀ row ∈ gd, row.length = numLevels gd) :
    ∀ (fuel index : ℕ) (parent : Option (String × List ℕ)),
      numLevels gd - index ≤ fuel → index < numLevels gd →
      (parent = none → index = 0) →
      (∀ pn prs, parent = some (pn, prs) → ∃ P : ℕ → Bool,
          prs = (List.range gd.length).filter P
          ∧ ∀ r, P r = true → rowLabel gd r (index - 1) = some pn) →
      (∀ t ∈ find_next_nested_level gd (numLevels gd) fuel index parent,
          GoodNode (numLevels gd) index t
          ∧ ∃ P : ℕ → Bool, t.rows = (List.range gd.length).filter P
              ∧ (∀ r, P r = true → rowLabel gd r index = some t.name))
      ∧ ((find_next_nested_level gd (numLevels gd) fuel index parent).map
            NestedGroup.rows).flatten.Perm
          (match parent with
           | none => List.range gd.length
           | some (_, prs) => prs) := by
  intro fuel
  induction fuel with
  | zero => intro index parent h1 h2 _ _; omega
  | succ fuel ih =>
    intro index parent hfuel hidx hnone hsome
    rcases parent with _ | ⟨pn, prs⟩
    · -- top level call
      have hidx0 : index = 0 := hnone rfl
      subst hidx0
      simp only [find_next_nested_level]
      constructor
      · intro t ht
        rcases List.mem_map.mp ht with ⟨name, hname, rfl⟩
        refine ⟨?_, fun r => rowLabel gd r 0 == some name, rfl,
          fun r h => eq_of_beq h⟩
        by_cases hL1 : 0 < numLevels gd - 1
        · simp only [if_pos hL1]
          have hrec := ih 1 (some (name, topRowsFor gd 0 name))
            (by omega) (by omega) (fun h => by cases h)
            (by
              intro pn2 prs2 hEq
              cases hEq
              exact ⟨fun r => rowLabel gd r 0 == some name, rfl,
                fun r h => eq_of_beq h⟩)
          exact GoodNode.mk hidx (fun h => absurd h (by omega))
            (fun _ => hrec.2) (fun c hc => (hrec.1 c hc).1)
        · simp only [if_neg hL1]
          exact GoodNode.mk hidx (fun _ => rfl)
            (fun h => absurd (by omega) h)
            (fun c hc => absurd hc (List.not_mem_nil c))
      · have hcov : ∀ r ∈ List.range gd.length,
            ∃ nm ∈ levelNamesTop gd 0, rowLabel gd r 0 = some nm := by
          intro r hr
          have hr2 : r < gd.length := List.mem_range.mp hr
          rcases rowLabel_isSome gd hrows r 0 hr2 hidx with ⟨nm, hnm⟩
          exact ⟨nm, mem_levelNamesTop gd 0 r nm hr2 hnm, hnm⟩
        have hflat : ∀ F : String → NestedGroup,
            (∀ nm, NestedGroup.rows (F nm) = topRowsFor gd 0 nm) →
            (((levelNamesTop gd 0).map F).map NestedGroup.rows).flatten.Perm
              (List.range gd.length) := by
          intro F hF
          rw [List.map_map]
          have hml : (levelNamesTop gd 0).map (NestedGroup.rows ∘ F)
              = (levelNamesTop gd 0).map (fun nm => (List.range gd.length).filter
                  (fun r => rowLabel gd r 0 == some nm)) := by
            apply List.map_congr_left
            intro nm _
            rw [Function.comp_apply, hF nm]
            rfl
          rw [hml]
          exact filter_partition_perm (levelNamesTop gd 0) (List.range gd.length)
            (fun r => rowLabel gd r 0) (nodup_pySortedSet _) hcov
        exact hflat _ (fun nm => rfl)
    · -- nested level call
      rcases hsome pn prs rfl with ⟨P, hprs, hPlab⟩
      have hrw : ∀ name, childRowsFor gd index pn prs name
          = (List.range gd.length).filter
              (fun r => (rowLabel gd r index == some name) && P r) := by
        intro name
        rw [hprs, childRowsFor_eq_filter gd index pn P hPlab name,
          List.filter_filter]
      simp only [find_next_nested_level]
      constructor
      · intro t ht
        rcases List.mem_map.mp ht with ⟨name, hname, rfl⟩
        refine ⟨?_, fun r => (rowLabel gd r index == some name) && P r, hrw name,
          fun r h => eq_of_beq (band_left h)⟩
        by_cases hL1 : index < numLevels gd - 1
        · simp only [if_pos hL1]
          have hrec := ih (index + 1)
            (some (name, childRowsFor gd index pn prs name))
            (by omega) (by omega) (fun h => by cases h)
            (by
              intro pn2 prs2 hEq
              cases hEq
              refine ⟨fun r => (rowLabel gd r index == some name) && P r,
                hrw name, ?_⟩
              intro r h
              have h2 := band_left h
              simpa using eq_of_beq h2)
          exact GoodNode.mk hidx (fun h => absurd h (by omega))
            (fun _ => hrec.2) (fun c hc => (hrec.1 c hc).1)
        · simp only [if_neg hL1]
          exact GoodNode.mk hidx (fun _ => rfl)
            (fun h => absurd (by omega) h)
            (fun c hc => absurd hc (List.not_mem_nil c))
      · have hcov : ∀ r ∈ prs,
            ∃ nm ∈ levelNamesChild gd index pn, rowLabel gd r index = some nm := by
          intro r hr
          rw [hprs] at hr
          rcases List.mem_filter.mp hr with ⟨hrng, hPr⟩
          have hr2 : r < gd.length := List.mem_range.mp hrng
          rcases rowLabel_isSome gd hrows r index hr2 hidx with ⟨nm, hnm⟩
          exact ⟨nm, mem_levelNamesChild gd index r pn nm hr2 (hPlab r hPr) hnm,
            hnm⟩
        have hflat : ∀ F : String → NestedGroup,
            (∀ nm, NestedGroup.rows (F nm) = childRowsFor gd index pn prs nm) →
            (((levelNamesChild gd index pn).map F).map NestedGroup.rows).flatten.Perm
              prs := by
          intro F hF
          rw [List.map_map]
          have hml : (levelNamesChild gd index pn).map (NestedGroup.rows ∘ F)
              = (levelNamesChild gd index pn).map (fun nm => prs.filter
                  (fun r => rowLabel gd r index == some nm)) := by
            apply List.map_congr_left
            intro nm _
            rw [Function.comp_apply, hF nm, hprs,
              childRowsFor_eq_filter gd index pn P hPlab nm]
          rw [hml]
          exact filter_partition_perm (levelNamesChild gd index pn) prs
            (fun r => rowLabel gd r index) (nodup_pySortedSet _) hcov
        exact hflat _ (fun nm => rfl)

/-- Claim C2: the heterogeneity statistics reported by the grouped,
regression and nested analyzers are additive: Q_model + Q_error = Q_total,
exactly, over exact (rational) arithmetic.  For the grouped analyzer this is
the line qm = qt - qe; for the regression analyzer qe = qt - qm; for the
nested analyzer the per-depth model Q values plus the deepest-level error Q
reproduce the total Q for every well-formed input with positive weights. -/
theorem C2_q_additivity :
    (∀ (eArr wsArr : List ℚ) (gd : List String),
        groupedQm eArr wsArr gd + groupQe eArr wsArr gd = qtOfList eArr wsArr)
    ∧ (∀ (n : ℕ) (e w x : ℕ → ℚ) (sum_w sum_we qt : ℚ),
        (calculate_regression_ma_values n e w x sum_w sum_we qt).1
          + (calculate_regression_ma_values n e w x sum_w sum_we qt).2.1 = qt)
    ∧ (∀ (gd : List (List String)) (e w : ℕ → ℚ),
        (∀ row ∈ gd, row.length = numLevels gd) → 1 ≤ numLevels gd →
        (∀ r, 0 < w r) →
        (((List.range (numLevels gd)).map (fun i => nestedQmLevel gd e w i)).sum)
          + nestedQe gd e w = qtAll e w gd.length) := by
  refine ⟨?_, ?_, ?_⟩
  · intro eArr wsArr gd
    unfold groupedQm
    ring
  · intro n e w x sum_w sum_we qt
    simp only [calculate_regression_ma_values]
    ring
  · intro gd e w hrows hL hw
    have hgood := find_level_good gd hrows (numLevels gd) 0 none
      (by omega) (by omega) (fun _ => rfl) (fun pn prs h => by cases h)
    unfold nestedQmLevel nestedQe
    rw [sum_comm_list, ← List.sum_map_add]
    have hdec : ∀ t ∈ topLevelOf gd,
        (((List.range (numLevels gd)).map (fun i =>
          (NestedGroup.qm e w (numLevels gd) t i (meanAll e w gd.length)).1)).sum)
          + (NestedGroup.qe e w (numLevels gd) t (numLevels gd - 1)).1
        = (t.rows.map (fun r =>
            w r * (e r - meanAll e w gd.length) ^ 2)).sum := by
      intro t ht
      exact nested_decomp e w hw (numLevels gd) t 0 (hgood.1 t ht).1
        (meanAll e w gd.length) (numLevels gd) (by omega)
    rw [List.map_congr_left hdec]
    have hmm : ((topLevelOf gd).map NestedGroup.rows).map (fun rs => (rs.map (fun r =>
        w r * (e r - meanAll e w gd.length) ^ 2)).sum)
        = (topLevelOf gd).map (fun t => (t.rows.map (fun r =>
            w r * (e r - meanAll e w gd.length) ^ 2)).sum) := by
      rw [List.map_map]
      rfl
    rw [← hmm, ← sum_over_flatten]
    have hperm : (((topLevelOf gd).map NestedGroup.rows).flatten).Perm
        (List.range gd.length) := hgood.2
    rw [(hperm.map _).sum_eq]
    rfl

/-- Concrete data for the C2 witness: two top-level groups, each with one
nested subgroup of two rows. -/
def gdW : List (List String) := [["a", "x"], ["a", "x"], ["b", "y"], ["b", "y"]]

/-- Effect vector for the C2 witness. -/
def eW : ℕ → ℚ := fun r => (r : ℚ)

/-- Unit weight vector for the C2 witness. -/
def wW : ℕ → ℚ := fun _ => 1

/-- Witness for C2: the nested additivity theorem applies to a two-level
four-row data set with unit weights. -/
theorem C2_q_additivity_witness :
    1 ≤ numLevels gdW
    ∧ (((List.range (numLevels gdW)).map
          (fun i => nestedQmLevel gdW eW wW i)).sum)
        + nestedQe gdW eW wW = qtAll eW wW gdW.length :=
  ⟨by decide,
   C2_q_additivity.2.2 gdW eW wW (by decide) (by decide) (fun _ => one_pos)⟩

/-! ### Bootstrap CI index computation (bootstrap_means, lines 303-365)
The replicate means are accumulated after the observed mean and sorted; the
percentile and bias-corrected indices are then read from the sorted list.
The normal cdf values scipy returns are taken as parameters; the true normal
cdf has range (0, 1). -/

/-- all_means = [obs_mean] extended with the replicate means, sorted
ascending; it has bootstrap_n + 1 entries. -/
def bootstrapAllMeans (obs : ℚ) (reps : List ℚ) : List ℚ :=
  (obs :: reps).insertionSort (fun a b => a ≤ b)

/-- lower_index = round((bootstrap_n + 1) * alpha / 2) (line 346). -/
def bootLowerIndex (bn : ℕ) (alpha : ℚ) : ℤ :=
  pyround (((bn : ℚ) + 1) * alpha / 2)

/-- upper_index = round(bootstrap_n - (bootstrap_n + 1) * alpha / 2). -/
def bootUpperIndex (bn : ℕ) (alpha : ℚ) : ℤ :=
  pyround ((bn : ℚ) - ((bn : ℚ) + 1) * alpha / 2)

/-- lower_bias_index = round((bootstrap_n + 1) * cdf(2 z0 - z)), clamped from
below at 0 only (lines 355-358): the source has no upper clamp here. -/
def bootLowerBiasIndex (bn : ℕ) (cdfLower : ℚ) : ℤ :=
  let i := pyround (((bn : ℚ) + 1) * cdfLower)
  if i < 0 then 0 else i

/-- upper_bias_index = round((bootstrap_n + 1) * cdf(2 z0 + z)), clamped from
above at bootstrap_n only (lines 356-360). -/
def bootUpperBiasIndex (bn : ℕ) (cdfUpper : ℚ) : ℤ :=
  let i := pyround (((bn : ℚ) + 1) * cdfUpper)
  if (bn : ℤ) < i then (bn : ℤ) else i

/-- Claim C6 (code bug): the accumulated list of means does have exactly
N + 1 elements, but the bias-corrected lower index is clamped only from
below, so a cdf value close enough to 1 (0.997 here, inside the open range
(0,1) of the normal cdf; scipy produces about 0.9964 at N = 99, alpha = 0.05
when all replicate means fall below the observed mean) drives the lower
index to N + 1 = 100, past the last valid position 99 of the sorted list. -/
theorem C6_bias_index_out_of_bounds :
    (∀ (obs : ℚ) (reps : List ℚ),
      (bootstrapAllMeans obs reps).length = reps.length + 1)
    ∧ (0 : ℚ) < 997 / 1000 ∧ (997 / 1000 : ℚ) < 1
    ∧ bootLowerBiasIndex 99 (997 / 1000) = 100
    ∧ ¬(bootLowerBiasIndex 99 (997 / 1000) ≤ 99) := by
  have hfloor : ⌊(997 / 10 : ℚ)⌋ = 99 := by
    rw [Int.floor_eq_iff]
    norm_num
  have hval : bootLowerBiasIndex 99 (997 / 1000) = 100 := by
    have harg : ((99 : ℚ) + 1) * (997 / 1000) = 997 / 10 := by norm_num
    simp only [bootLowerBiasIndex, pyround, harg, hfloor]
    norm_num
  refine ⟨?_, by norm_num, by norm_num, hval, by rw [hval]; norm_num⟩
  intro obs reps
  unfold bootstrapAllMeans
  rw [List.length_insertionSort]
  rfl

/-! ### Cumulative meta-analysis (cumulative_meta_analysis, lines 922-1022)
Valid rows are gathered as [order_value, effect, variance] triples in input
order and sorted with Python list.sort(), which compares the triples
lexicographically; the simple-meta-analysis statistics are then recomputed
for every prefix of size 2..n. -/

/-- Python list comparison on the [g, e, v] triples: lexicographic. -/
def pyLexLe (a b : ℚ × ℚ × ℚ) : Prop :=
  a.1 < b.1 ∨ (a.1 = b.1 ∧
    (a.2.1 < b.2.1 ∨ (a.2.1 = b.2.1 ∧ a.2.2 ≤ b.2.2)))

instance : DecidableRel pyLexLe := fun a b => by
  unfold pyLexLe
  infer_instance

instance : IsTotal (ℚ × ℚ × ℚ) pyLexLe := by
  constructor
  intro a b
  unfold pyLexLe
  rcases lt_trichotomy a.1 b.1 with h | h | h
  · exact Or.inl (Or.inl h)
  · rcases lt_trichotomy a.2.1 b.2.1 with h2 | h2 | h2
    · exact Or.inl (Or.inr ⟨h, Or.inl h2⟩)
    · rcases le_total a.2.2 b.2.2 with h3 | h3
      · exact Or.inl (Or.inr ⟨h, Or.inr ⟨h2, h3⟩⟩)
      · exact Or.inr (Or.inr ⟨h.symm, Or.inr ⟨h2.symm, h3⟩⟩)
    · exact Or.inr (Or.inr ⟨h.symm, Or.inl h2⟩)
  · exact Or.inr (Or.inl h)

instance : IsTrans (ℚ × ℚ × ℚ) pyLexLe := by
  constructor
  intro a b c hab hbc
  unfold pyLexLe at *
  rcases hab with h1 | ⟨h1, h1b⟩
  · rcases hbc with h2 | ⟨h2, _⟩
    · exact Or.inl (h1.trans h2)
    · exact Or.inl (h2 ▸ h1)
  · rcases hbc with h2 | ⟨h2, h2b⟩
    · exact Or.inl (h1 ▸ h2)
    · refine Or.inr ⟨h1.trans h2, ?_⟩
      rcases h1b with h3 | ⟨h3, h3b⟩
      · rcases h2b with h4 | ⟨h4, _⟩
        · exact Or.inl (h3.trans h4)
        · exact Or.inl (h4 ▸ h3)
      · rcases h2b with h4 | ⟨h4, h4b⟩
        · exact Or.inl (h3 ▸ h4)
        · exact Or.inr ⟨h3.trans h4, h3b.trans h4b⟩

/-- tmp_data.sort() from line 949. -/
def cumulativeSort (rows : List (ℚ × ℚ × ℚ)) : List (ℚ × ℚ × ℚ) :=
  rows.insertionSort pyLexLe

/-- Stated from the claim wording, for comparison with cumulativeSort: a
stable sort on the order value alone (insertion sort comparing only the
first component is stable, so rows with equal order values keep their input
order). -/
def claimOrderSort (rows : List (ℚ × ℚ × ℚ)) : List (ℚ × ℚ × ℚ) :=
  rows.insertionSort (fun a b => a.1 ≤ b.1)

/-- One heterogeneity row of the cumulative output: prefix size, Q and df
(the chi-square p value, a scipy display value, is omitted). -/
structure CumHet where
  ns : ℕ
  qt : ℚ
  df : ℕ
deriving DecidableEq

/-- One mean row of the cumulative output: prefix size, mean, median and
mean variance (the CI and bootstrap display values are omitted). -/
structure CumMean where
  ns : ℕ
  mean : ℚ
  median : ℚ
  variance : ℚ
deriving DecidableEq

instance : Inhabited CumHet := ⟨⟨0, 0, 0⟩⟩

instance : Inhabited CumMean := ⟨⟨0, 0, 0, 0⟩⟩

/-- The loop body of cumulative_meta_analysis (lines 975-1003) for one prefix
size ns: statistics of the first ns sorted rows, with the optional single
random-effects re-weighting pass. -/
def cumulativePrefixStats (sorted : List (ℚ × ℚ × ℚ)) (re : Bool)
    (ns : ℕ) : CumHet × CumMean :=
  let tmp := sorted.take ns
  let tmpE := tmp.map (fun t => t.2.1)
  let tmpV := tmp.map (fun t => t.2.2)
  let tmpW := tmp.map (fun t => 1 / t.2.2)
  let df := ns - 1
  let mean0 := meanEList tmpE tmpW
  let var0 := 1 / tmpW.sum
  let qt0 := qtOfList tmpE tmpW
  let median0 := median_effect tmpE tmpW
  let pooled := pooled_var_no_structure qt0 tmpW.sum
    ((tmpW.map (fun x => x ^ 2)).sum) (df : ℚ)
  if re then
    let ws := tmpV.map (fun v => 1 / (v + pooled))
    (⟨ns, qtOfList tmpE ws, df⟩, ⟨ns, meanEList tmpE ws, median0, 1 / ws.sum⟩)
  else
    (⟨ns, qt0, df⟩, ⟨ns, mean0, median0, var0⟩)

/-- cumulative_meta_analysis core: sort, then one heterogeneity row and one
mean row for each prefix size ns = 2, 3, ..., n. -/
def cumulative_meta_core (rows : List (ℚ × ℚ × ℚ)) (re : Bool) :
    List CumHet × List CumMean :=
  let sorted := cumulativeSort rows
  let n := rows.length
  (((List.range (n - 1)).map (fun k => (cumulativePrefixStats sorted re (k + 2)).1)),
   ((List.range (n - 1)).map (fun k => (cumulativePrefixStats sorted re (k + 2)).2)))

/-- Counterexample to claim C5: two rows share the order value 1 but arrive
with effects 5 then 2; the source sort orders them by effect, not by input
position, so the claimed stable order-only sort disagrees with the code. -/
theorem C5_counterexample :
    cumulativeSort [(1, 5, 1), (1, 2, 1)] = [(1, 2, 1), (1, 5, 1)]
    ∧ claimOrderSort [(1, 5, 1), (1, 2, 1)] = [(1, 5, 1), (1, 2, 1)]
    ∧ cumulativeSort [(1, 5, 1), (1, 2, 1)]
        ≠ claimOrderSort [(1, 5, 1), (1, 2, 1)] := by
  have h1 : ¬ pyLexLe ((1 : ℚ), (5 : ℚ), (1 : ℚ)) (1, 2, 1) := by
    norm_num [pyLexLe]
  have h2 : ((1 : ℚ), (5 : ℚ), (1 : ℚ)).1 ≤ ((1 : ℚ), (2 : ℚ), (1 : ℚ)).1 := by
    norm_num
  have hA : cumulativeSort [(1, 5, 1), (1, 2, 1)] = [(1, 2, 1), (1, 5, 1)] := by
    simp [cumulativeSort, List.insertionSort, List.orderedInsert, h1]
  have hB : claimOrderSort [(1, 5, 1), (1, 2, 1)] = [(1, 5, 1), (1, 2, 1)] := by
    simp [claimOrderSort, List.insertionSort, List.orderedInsert, h2]
  refine ⟨hA, hB, ?_⟩
  rw [hA, hB]
  intro h
  have h3 : ((1 : ℚ), (2 : ℚ), (1 : ℚ)) = ((1 : ℚ), (5 : ℚ), (1 : ℚ)) := by
    injection h
  have h4 := congrArg (fun t : ℚ × ℚ × ℚ => t.2.1) h3
  norm_num at h4

/-- Claim C5 as amended: the cumulative analyzer sorts the valid rows
ascending lexicographically by the (order value, effect, variance) triple
(ties in the order value are broken by effect and then variance, not by
input position) and then emits exactly one heterogeneity row and one mean
row for each prefix size 2..n of the sorted sequence. -/
theorem C5_cumulative_prefixes (rows : List (ℚ × ℚ × ℚ)) (re : Bool) :
    (cumulativeSort rows).Perm rows
    ∧ List.Sorted pyLexLe (cumulativeSort rows)
    ∧ (cumulative_meta_core rows re).1.length = rows.length - 1
    ∧ (cumulative_meta_core rows re).2.length = rows.length - 1
    ∧ (∀ k, k < rows.length - 1 →
        (cumulative_meta_core rows re).1.getD k default
          = (cumulativePrefixStats (cumulativeSort rows) re (k + 2)).1
        ∧ (cumulative_meta_core rows re).2.getD k default
          = (cumulativePrefixStats (cumulativeSort rows) re (k + 2)).2) := by
  refine ⟨List.perm_insertionSort pyLexLe rows,
    List.sorted_insertionSort pyLexLe rows, by simp [cumulative_meta_core],
    by simp [cumulative_meta_core], ?_⟩
  intro k hk
  constructor
  · simp [cumulative_meta_core, List.getD_eq_getElem?_getD, List.getElem?_map,
      List.getElem?_range hk]
  · simp [cumulative_meta_core, List.getD_eq_getElem?_getD, List.getElem?_map,
      List.getElem?_range hk]

/-- Witness for C5 (amended): three concrete rows, prefix entry k = 0. -/
theorem C5_cumulative_prefixes_witness :
    (0 < [((2 : ℚ), (1 : ℚ), (1 : ℚ)), (1, 4, 1), (3, 2, 1)].length - 1)
    ∧ (cumulative_meta_core [((2 : ℚ), (1 : ℚ), (1 : ℚ)), (1, 4, 1), (3, 2, 1)]
        false).1.getD 0 default
      = (cumulativePrefixStats (cumulativeSort
          [((2 : ℚ), (1 : ℚ), (1 : ℚ)), (1, 4, 1), (3, 2, 1)]) false 2).1 :=
  ⟨by norm_num,
   ((C5_cumulative_prefixes [((2 : ℚ), (1 : ℚ), (1 : ℚ)), (1, 4, 1), (3, 2, 1)]
      false).2.2.2.2 0 (by norm_num)).1⟩

/-! ### Trim-and-fill (trim_and_fill_analysis, MetaWinPubBiasFunctions.py
lines 193-348)
Data rows are (effect, weight, variance) triples; weight = 1/variance.  The
iterative loop keeps the state (trim_n, new_trim, tmp_mean_e, skew_right)
and runs while trim_n differs from new_trim, at most 1000 times.  math.sqrt,
used only by the Q0 estimator, is passed in as a function parameter. -/

/-- The k-estimator choice of the options (R0, L0, Q0). -/
inductive KEst : Type where
  | R
  | L
  | Q
deriving DecidableEq

/-- The loop state of trim_and_fill_analysis. -/
structure TFState where
  trimN : ℤ
  newTrim : ℕ
  tmpMean : ℚ
  skewRight : Bool
deriving DecidableEq

/-- Sort rows ascending by effect (column 0 argsort). -/
def sortTriplesAsc (data : List (ℚ × ℚ × ℚ)) : List (ℚ × ℚ × ℚ) :=
  data.insertionSort (fun a b => a.1 ≤ b.1)

/-- Sort rows descending by effect (column 0 argsort reversed). -/
def sortTriplesDesc (data : List (ℚ × ℚ × ℚ)) : List (ℚ × ℚ × ℚ) :=
  data.insertionSort (fun a b => b.1 ≤ a.1)

/-- Ordering used to model numpy argsort over the value list (ties broken by
position; the source data for the claims at issue has no ties). -/
def rankLt (xs : List ℚ) (a b : ℕ) : Prop :=
  xs.getD a 0 < xs.getD b 0 ∨ (xs.getD a 0 = xs.getD b 0 ∧ a ≤ b)

instance (xs : List ℚ) : DecidableRel (rankLt xs) := fun a b => by
  unfold rankLt
  infer_instance

/-- numpy argsort: the index permutation sorting xs ascending. -/
def argsortAsc (xs : List ℚ) : List ℕ :=
  (List.range xs.length).insertionSort (rankLt xs)

/-- argsort().argsort(): the 0-based rank of each element, computed as the
position of the element index in the argsort permutation. -/
def rank0 (xs : List ℚ) : List ℕ :=
  (List.range xs.length).map (fun i => (argsortAsc xs).indexOf i)

/-- ranks = (abs-diff ranks + 1) * sign(diff) (lines 278-281). -/
def signedRanks (diffs : List ℚ) : List ℚ :=
  let absD := diffs.map (fun d => |d|)
  (List.range diffs.length).map (fun i =>
    (((rank0 absD).getD i 0 : ℚ) + 1) * qsign (diffs.getD i 0))

/-- t_pos = sum of the positive signed ranks. -/
def tPos (ranks : List ℚ) : ℚ :=
  (ranks.filter (fun r => decide (0 < r))).sum

/-- t_neg = sum of the absolute negative signed ranks. -/
def tNeg (ranks : List ℚ) : ℚ :=
  ((ranks.filter (fun r => decide (r < 0))).map (fun r => |r|)).sum

/-- The trimmed mean of one loop iteration (lines 267-275): drop the trim_n
most extreme rows, take the fixed-effects mean, and under random effects
re-estimate the pooled variance with df = n - trim_n - 1 and re-weight. -/
def tf_trimmed_mean (n : ℕ) (re : Bool) (t : ℕ)
    (sorted : List (ℚ × ℚ × ℚ)) : ℚ :=
  let trimData := sorted.drop t
  let te := trimData.map (fun p => p.1)
  let tw := trimData.map (fun p => p.2.1)
  let tv := trimData.map (fun p => p.2.2)
  let m := meanEList te tw
  if re then
    let qt := qtOfList te tw
    let pooled := pooled_var_no_structure qt tw.sum
      ((tw.map (fun x => x ^ 2)).sum) ((n : ℚ) - (t : ℚ) - 1)
    meanEList te (tv.map (fun v => 1 / (v + pooled)))
  else m

/-- One iteration of the trim-and-fill while loop (lines 254-298). -/
def tf_step (data : List (ℚ × ℚ × ℚ)) (re : Bool) (kest : KEst)
    (sqrtFn : ℚ → ℚ) (st : TFState) : TFState :=
  let n := data.length
  let t := st.newTrim
  let sorted := if st.skewRight then sortTriplesDesc data else sortTriplesAsc data
  let m := tf_trimmed_mean n re t sorted
  let diffs := sorted.map (fun p => p.1 - m)
  let ranks := signedRanks diffs
  let tp := tPos ranks
  let tn0 := tNeg ranks
  let right := tn0 < tp
  let gamma : ℚ :=
    if right then (n : ℚ) - |listMin ranks| else (n : ℚ) - |listMax ranks|
  let tn := if right then tp else tn0
  let k : ℤ := match kest with
    | .R => max 0 (pyround (gamma - 1))
    | .Q => max 0 (pyround ((n : ℚ) - 1 / 2
        - sqrtFn (2 * (n : ℚ) ^ 2 - 4 * tn + 1 / 4)))
    | .L => max 0 (pyround ((4 * tn - (n : ℚ) * ((n : ℚ) + 1))
        / (2 * (n : ℚ) - 1)))
  { trimN := (t : ℤ), newTrim := k.toNat, tmpMean := m,
    skewRight := if right then st.skewRight else false }

/-- The state just before the loop (lines 229-253): trim_n = -1,
new_trim = 0, tmp_mean_e = the full-sample mean (random-effects adjusted if
requested), skew_right = True. -/
def tf_init (data : List (ℚ × ℚ × ℚ)) (re : Bool) : TFState :=
  let e := data.map (fun p => p.1)
  let w := data.map (fun p => p.2.1)
  let v := data.map (fun p => p.2.2)
  let m := meanEList e w
  let m2 := if re then
      let qt := qtOfList e w
      let pooled := pooled_var_no_structure qt w.sum
        ((w.map (fun x => x ^ 2)).sum) ((data.length : ℚ) - 1)
      meanEList e (v.map (fun vv => 1 / (vv + pooled)))
    else m
  { trimN := -1, newTrim := 0, tmpMean := m2, skewRight := true }

/-- The while loop: runs while trim_n differs from new_trim and fuel (the
1000-iteration cap) remains. -/
def tf_loop (data : List (ℚ × ℚ × ℚ)) (re : Bool) (kest : KEst)
    (sqrtFn : ℚ → ℚ) : ℕ → TFState → TFState
  | 0, st => st
  | fuel + 1, st =>
    if st.trimN = st.newTrim then st
    else tf_loop data re kest sqrtFn fuel (tf_step data re kest sqrtFn st)

/-- The loop state at exit. -/
def tf_exit (data : List (ℚ × ℚ × ℚ)) (re : Bool) (kest : KEst)
    (sqrtFn : ℚ → ℚ) : TFState :=
  tf_loop data re kest sqrtFn 1000 (tf_init data re)

/-- The extremity-ordered data used for the fill step (lines 301-308). -/
def tf_sorted_exit (data : List (ℚ × ℚ × ℚ)) (re : Bool) (kest : KEst)
    (sqrtFn : ℚ → ℚ) : List (ℚ × ℚ × ℚ) :=
  if (tf_exit data re kest sqrtFn).skewRight then sortTriplesDesc data
  else sortTriplesAsc data

/-- The filled data set (lines 309-317): the n extremity-ordered original
rows followed by trim_n synthetic rows mirroring the most extreme effects
about the trimmed mean, with weight and variance copied. -/
def tf_filled (data : List (ℚ × ℚ × ℚ)) (re : Bool) (kest : KEst)
    (sqrtFn : ℚ → ℚ) : List (ℚ × ℚ × ℚ) :=
  let st := tf_exit data re kest sqrtFn
  let sorted := tf_sorted_exit data re kest sqrtFn
  sorted ++ (List.range st.trimN.toNat).map (fun i =>
    let row := sorted.getD i (0, 0, 0)
    (2 * st.tmpMean - row.1, row.2.1, row.2.2))

theorem tf_loop_nonneg (data : List (ℚ × ℚ × ℚ)) (re : Bool) (kest : KEst)
    (sqrtFn : ℚ → ℚ) :
    ∀ (fuel : ℕ) (st : TFState), 0 ≤ st.trimN →
      0 ≤ (tf_loop data re kest sqrtFn fuel st).trimN := by
  intro fuel
  induction fuel with
  | zero => intro st h; exact h
  | succ fuel ih =>
    intro st h
    rw [tf_loop]
    split
    · exact h
    · exact ih _ (Int.natCast_nonneg _)

theorem tf_exit_nonneg (data : List (ℚ × ℚ × ℚ)) (re : Bool) (kest : KEst)
    (sqrtFn : ℚ → ℚ) : 0 ≤ (tf_exit data re kest sqrtFn).trimN := by
  unfold tf_exit
  show 0 ≤ (tf_loop data re kest sqrtFn (999 + 1) (tf_init data re)).trimN
  rw [tf_loop]
  split
  · next h =>
    have h2 : (-1 : ℤ) = 0 := h
    cases h2
  · exact tf_loop_nonneg data re kest sqrtFn 999 _ (Int.natCast_nonneg _)

theorem tf_sorted_exit_length (data : List (ℚ × ℚ × ℚ)) (re : Bool)
    (kest : KEst) (sqrtFn : ℚ → ℚ) :
    (tf_sorted_exit data re kest sqrtFn).length = data.length := by
  unfold tf_sorted_exit
  split
  · exact List.length_insertionSort _ data
  · exact List.length_insertionSort _ data

theorem tf_sorted_exit_perm (data : List (ℚ × ℚ × ℚ)) (re : Bool)
    (kest : KEst) (sqrtFn : ℚ → ℚ) :
    (tf_sorted_exit data re kest sqrtFn).Perm data := by
  unfold tf_sorted_exit
  split
  · exact List.perm_insertionSort _ data
  · exact List.perm_insertionSort _ data

/-- Claim C9: at loop exit the estimated missing-study count is nonnegative,
the filled data set has exactly n + trim_n rows, its first n rows are the
original observations reordered by extremity, and synthetic row i mirrors
the i-th most extreme original effect about the trimmed mean while copying
that row's weight and variance. -/
theorem C9_trim_fill_filled (data : List (ℚ × ℚ × ℚ)) (re : Bool)
    (kest : KEst) (sqrtFn : ℚ → ℚ) :
    0 ≤ (tf_exit data re kest sqrtFn).trimN
    ∧ (tf_filled data re kest sqrtFn).length
        = data.length + (tf_exit data re kest sqrtFn).trimN.toNat
    ∧ ((tf_filled data re kest sqrtFn).take data.length).Perm data
    ∧ (tf_filled data re kest sqrtFn).drop data.length
        = (List.range (tf_exit data re kest sqrtFn).trimN.toNat).map (fun i =>
            (2 * (tf_exit data re kest sqrtFn).tmpMean
              - ((tf_sorted_exit data re kest sqrtFn).getD i (0, 0, 0)).1,
             ((tf_sorted_exit data re kest sqrtFn).getD i (0, 0, 0)).2.1,
             ((tf_sorted_exit data re kest sqrtFn).getD i (0, 0, 0)).2.2)) := by
  have hlen := tf_sorted_exit_length data re kest sqrtFn
  refine ⟨tf_exit_nonneg data re kest sqrtFn, ?_, ?_, ?_⟩
  · unfold tf_filled
    rw [List.length_append, List.length_map, List.length_range, hlen]
  · unfold tf_filled
    rw [← hlen, List.take_left]
    exact tf_sorted_exit_perm data re kest sqrtFn
  · unfold tf_filled
    rw [← hlen, List.drop_left]

/-- Stated from the claim wording, for comparison with tf_step: the same
iteration data but with each estimator value floor-rounded (instead of
Python round) and with R0 always using the minimum signed rank (instead of
switching to the maximum under left skew). -/
def tf_claim_newTrim (data : List (ℚ × ℚ × ℚ)) (re : Bool) (kest : KEst)
    (sqrtFn : ℚ → ℚ) (st : TFState) : ℕ :=
  let n := data.length
  let t := st.newTrim
  let sorted := if st.skewRight then sortTriplesDesc data else sortTriplesAsc data
  let m := tf_trimmed_mean n re t sorted
  let diffs := sorted.map (fun p => p.1 - m)
  let ranks := signedRanks diffs
  let tp := tPos ranks
  let tn0 := tNeg ranks
  let right := tn0 < tp
  let tn := if right then tp else tn0
  let k : ℤ := match kest with
    | .R => max 0 ⌊(n : ℚ) - |listMin ranks| - 1⌋
    | .Q => max 0 ⌊(n : ℚ) - 1 / 2 - sqrtFn (2 * (n : ℚ) ^ 2 - 4 * tn + 1 / 4)⌋
    | .L => max 0 ⌊(4 * tn - (n : ℚ) * ((n : ℚ) + 1)) / (2 * (n : ℚ) - 1)⌋
  k.toNat

/-- Stated from the amended claim wording: the new k of one iteration, with
Python banker rounding, and with the R0 base count n - |min signed rank|
under right skew but n - |max signed rank| under left skew. -/
def tf_amended_newTrim (data : List (ℚ × ℚ × ℚ)) (re : Bool) (kest : KEst)
    (sqrtFn : ℚ → ℚ) (st : TFState) : ℕ :=
  let n := data.length
  let t := st.newTrim
  let sorted := if st.skewRight then sortTriplesDesc data else sortTriplesAsc data
  let m := tf_trimmed_mean n re t sorted
  let diffs := sorted.map (fun p => p.1 - m)
  let ranks := signedRanks diffs
  let tp := tPos ranks
  let tn0 := tNeg ranks
  let right := tn0 < tp
  let tn := if right then tp else tn0
  let k : ℤ := match kest with
    | .R => max 0 (pyround ((if right then (n : ℚ) - |listMin ranks|
        else (n : ℚ) - |listMax ranks|) - 1))
    | .Q => max 0 (pyround ((n : ℚ) - 1 / 2
        - sqrtFn (2 * (n : ℚ) ^ 2 - 4 * tn + 1 / 4)))
    | .L => max 0 (pyround ((4 * tn - (n : ℚ) * ((n : ℚ) + 1))
        / (2 * (n : ℚ) - 1)))
  k.toNat

/-- The sqrt stand-in for counterexamples that never reach the Q0 branch. -/
def noSqrt : ℚ → ℚ := fun _ => 0

/-- Concrete right-skewed unit-weight data (effect, weight, variance): the
first iteration gives signed ranks (4, 3, 2, -1, -5), T_n = 9 and the L0
value 2/3, which Python round sends to 1 but floor sends to 0. -/
def tfDataL : List (ℚ × ℚ × ℚ) :=
  [(7, 1, 1), (10, 1, 1), (11, 1, 1), (12, 1, 1), (0, 1, 1)]

/-- Concrete left-skewed data: signed ranks (2, 1, -3, -4, -5), so the code
computes R0 from the maximum signed rank (5 - 2 - 1 = 2) while the claim
formula uses the minimum (5 - 5 - 1 = -1, clamped to 0). -/
def tfDataR : List (ℚ × ℚ × ℚ) :=
  [(5, 1, 1), (6, 1, 1), (7, 1, 1), (12, 5, 1 / 5), (11, 2, 1 / 2)]

/-- Counterexample to claim C4: on tfDataL with the L0 estimator the code
computes k = 1 where the claimed floor-rounding gives 0, and on tfDataR
with the R0 estimator the code computes k = 2 where the claimed
min-signed-rank formula gives 0. -/
theorem C4_counterexample :
    (tf_step tfDataL false KEst.L noSqrt (tf_init tfDataL false)).newTrim = 1
    ∧ tf_claim_newTrim tfDataL false KEst.L noSqrt (tf_init tfDataL false) = 0
    ∧ (tf_step tfDataR false KEst.R noSqrt (tf_init tfDataR false)).newTrim = 2
    ∧ tf_claim_newTrim tfDataR false KEst.R noSqrt (tf_init tfDataR false) = 0 := by
  refine ⟨?_, ?_, ?_, ?_⟩ <;>
    norm_num [tf_step, tf_claim_newTrim, tf_init, noSqrt, tfDataL, tfDataR,
      sortTriplesDesc, sortTriplesAsc, tf_trimmed_mean, meanEList, sumEWList,
      qtOfList, signedRanks, rank0, argsortAsc, rankLt, qsign, tPos, tNeg,
      listMin, listMax, pyround, List.insertionSort, List.orderedInsert,
      List.range_succ, pooled_var_no_structure]
  all_goals decide

/-- Claim C4 as amended: in each iteration the new missing-study count is
the chosen estimator value (R0 from the minimum signed rank under right
skew and from the maximum under left skew; L0 and Q0 as claimed, with T_n
the positive-rank sum when right skewed and the absolute negative-rank sum
otherwise) rounded to the nearest integer by Python round (ties to even)
and clamped at 0, and the loop stops when k stops changing or when the
1000-iteration cap runs out. -/
theorem C4_trim_iteration (data : List (ℚ × ℚ × ℚ)) (re : Bool) (kest : KEst)
    (sqrtFn : ℚ → ℚ) (st : TFState) (fuel : ℕ) :
    (tf_step data re kest sqrtFn st).newTrim
      = tf_amended_newTrim data re kest sqrtFn st
    ∧ (st.trimN = st.newTrim → tf_loop data re kest sqrtFn fuel st = st)
    ∧ (st.trimN ≠ st.newTrim → tf_loop data re kest sqrtFn (fuel + 1) st
        = tf_loop data re kest sqrtFn fuel (tf_step data re kest sqrtFn st))
    ∧ tf_loop data re kest sqrtFn 0 st = st
    ∧ tf_exit data re kest sqrtFn
        = tf_loop data re kest sqrtFn 1000 (tf_init data re) := by
  refine ⟨?_, ?_, ?_, rfl, rfl⟩
  · cases kest
    · simp only [tf_step, tf_amended_newTrim]
    · simp only [tf_step, tf_amended_newTrim]
    · simp only [tf_step, tf_amended_newTrim]
  · intro h
    cases fuel
    · rfl
    · rw [tf_loop, if_pos h]
  · intro h
    rw [tf_loop, if_neg h]

/-- Witness for C4 (amended): a state whose counts already agree leaves the
loop immediately. -/
theorem C4_trim_iteration_witness :
    ((⟨0, 0, 0, true⟩ : TFState).trimN = (⟨0, 0, 0, true⟩ : TFState).newTrim)
    ∧ tf_loop [] false KEst.L noSqrt 5 ⟨0, 0, 0, true⟩
        = (⟨0, 0, 0, true⟩ : TFState) :=
  ⟨rfl,
   (C4_trim_iteration [] false KEst.L noSqrt ⟨0, 0, 0, true⟩ 5).2.1 rfl⟩

/-! ### Rank-correlation publication bias randomization
(rank_correlation_analysis, MetaWinPubBiasFunctions.py lines 23-189)
The statistics are real-valued (they divide by square roots); they are
never evaluated numerically here, so classical real instances are fine. -/

/-- correlation(x, y) (lines 27-34). -/
noncomputable def correlation (x y : List ℝ) : ℝ :=
  let n : ℝ := x.length
  let xm := x.sum / n
  let ym := y.sum / n
  let sxy := ((x.zip y).map (fun p => (p.1 - xm) * (p.2 - ym))).sum
  let sx2 := (x.map (fun a => (a - xm) ^ 2)).sum
  let sy2 := (y.map (fun a => (a - ym) ^ 2)).sum
  sxy / Real.sqrt (sx2 * sy2)

/-- The concordant-pair count c of kendalls_tau (lines 48-54): each later
row counts 1 when its second column exceeds the current one, 1/2 on a tie. -/
noncomputable def tauPairCount : List (ℝ × ℝ) → ℝ
  | [] => 0
  | p :: rest =>
    (rest.map (fun q => if p.2 < q.2 then (1 : ℝ)
      else if q.2 = p.2 then 1 / 2 else 0)).sum + tauPairCount rest

/-- One tie-correction term of kendalls_tau (lines 57-66): the sum of
c * (c - 1) over the multiplicities c > 1 of the rank values. -/
noncomputable def tieCorrection (ranks : List ℝ) : ℝ :=
  ((ranks.dedup).map (fun u =>
    if 1 < ranks.count u then ((ranks.count u : ℝ)) * ((ranks.count u : ℝ) - 1)
    else 0)).sum

/-- kendalls_tau (lines 37-69): sorts the rank pairs by the first column
(the effect ranks, or the covariate ranks when the effect ranks carry
ties), counts concordant pairs, and applies the tie corrections. -/
noncomputable def kendalls_tau (eRanks xRanks : List ℝ) : ℝ :=
  let n : ℝ := eRanks.length
  let sortData : List (ℝ × ℝ) :=
    if (eRanks.dedup).length < eRanks.length then
      (xRanks.zip eRanks).insertionSort (fun a b => a.1 ≤ b.1)
    else
      (eRanks.zip xRanks).insertionSort (fun a b => a.1 ≤ b.1)
  let c := tauPairCount sortData
  let sumN := 4 * c - n * (n - 1)
  let t1 := tieCorrection eRanks
  let t2 := tieCorrection xRanks
  sumN / Real.sqrt ((n * (n - 1) - t1) * (n * (n - 1) - t2))

/-- The correlation-method option of the rank-correlation analysis. -/
inductive CorTest : Type where
  | tau
  | rho
deriving DecidableEq

/-- The observed statistic r (lines 143-146). -/
noncomputable def observed_stat (ct : CorTest) (eRanks xRanks : List ℝ) : ℝ :=
  match ct with
  | .tau => kendalls_tau eRanks xRanks
  | .rho => correlation eRanks xRanks

/-- One replicate statistic of the randomization loop (lines 162-166).  The
tau branch uses the permuted effect ranks rand_e_ranks; the rho branch, as
written at line 166 of the source, calls correlation(e_ranks, x_ranks) on
the original ranks, so randERanks is unused there. -/
noncomputable def replicate_stat (ct : CorTest)
    (eRanks xRanks randERanks : List ℝ) : ℝ :=
  match ct with
  | .tau => kendalls_tau randERanks xRanks
  | .rho => correlation eRanks xRanks

/-- cnt_r: starts at 1 and is incremented whenever the absolute replicate
statistic reaches the absolute observed statistic (lines 159-168); the
permutations the rng draws are abstracted as the list perms. -/
noncomputable def rand_count (ct : CorTest) (eRanks xRanks : List ℝ)
    (perms : List (List ℝ)) : ℕ :=
  perms.foldl (fun cnt pe =>
    if |observed_stat ct eRanks xRanks| ≤ |replicate_stat ct eRanks xRanks pe|
    then cnt + 1 else cnt) 1

/-- p_random = cnt_r / (nreps + 1) (line 172). -/
noncomputable def p_random (ct : CorTest) (eRanks xRanks : List ℝ)
    (perms : List (List ℝ)) : ℝ :=
  (rand_count ct eRanks xRanks perms : ℝ) / ((perms.length : ℝ) + 1)

theorem rand_count_rho_all (eRanks xRanks : List ℝ) :
    ∀ (perms : List (List ℝ)) (init : ℕ),
      perms.foldl (fun cnt pe =>
        if |observed_stat CorTest.rho eRanks xRanks|
            ≤ |replicate_stat CorTest.rho eRanks xRanks pe|
        then cnt + 1 else cnt) init = init + perms.length := by
  intro perms
  induction perms with
  | nil => intro init; simp
  | cons pe rest ih =>
    intro init
    rw [List.foldl_cons]
    have hrepl : replicate_stat CorTest.rho eRanks xRanks pe
        = observed_stat CorTest.rho eRanks xRanks := rfl
    rw [hrepl, if_pos (le_refl _), ih]
    simp only [List.length_cons]
    omega

/-- Claim C1 (code bug): in the Spearman branch of the randomization loop
every replicate statistic is computed from the original, unpermuted effect
ranks, so it always equals the observed statistic; the count therefore
reaches nreps + 1 and the reported randomization p-value is identically 1,
whatever permutations are drawn.  (The Kendall branch does use the permuted
ranks.) -/
theorem C1_rho_replicate_ignores_permutation :
    (∀ (eRanks xRanks randERanks : List ℝ),
        replicate_stat CorTest.rho eRanks xRanks randERanks
          = observed_stat CorTest.rho eRanks xRanks)
    ∧ (∀ (eRanks xRanks : List ℝ) (perms : List (List ℝ)),
        rand_count CorTest.rho eRanks xRanks perms = perms.length + 1)
    ∧ (∀ (eRanks xRanks : List ℝ) (perms : List (List ℝ)),
        p_random CorTest.rho eRanks xRanks perms = 1) := by
  have hcount : ∀ (eRanks xRanks : List ℝ) (perms : List (List ℝ)),
      rand_count CorTest.rho eRanks xRanks perms = perms.length + 1 := by
    intro eRanks xRanks perms
    unfold rand_count
    rw [rand_count_rho_all eRanks xRanks perms 1]
    omega
  refine ⟨fun _ _ _ => rfl, hcount, ?_⟩
  intro eRanks xRanks perms
  unfold p_random
  rw [hcount]
  push_cast
  exact div_self (by positivity)

/-! ### Nested structure validation (check_data_for_nested and
NestedGroup.structure_check, MetaWinAnalysisFunctions.py lines 1462-1601) -/

/-- A Python value as handled by the structure-check plumbing: the check
entries mix strings, ints, bools, and nested lists of such values. -/
inductive PyVal : Type where
  | pstr (v : String)
  | pint (v : ℕ)
  | pbool (v : Bool)
  | plist (items : List PyVal)

/-- NestedGroup.structure_check (lines 1589-1601): a node with fewer than
two rows reports its violation triple, wrapped in an extra list layer only
at the top level; otherwise the nonempty child check results are appended
whole (one list element per child result) into the returned list.  The fuel
bounds the recursion depth as elsewhere. -/
def structure_check (maxIndex : ℕ) : ℕ → NestedGroup → List PyVal
  | 0, _ => []
  | fuel + 1, .node nm i rows cs =>
    if rows.length < 2 then
      if i = 0 then
        [PyVal.plist [PyVal.pstr nm, PyVal.pint i, PyVal.pbool true]]
      else [PyVal.pstr nm, PyVal.pint i, PyVal.pbool true]
    else if i < maxIndex then
      ((cs.map (fun c => structure_check maxIndex fuel c)).filter
        (fun ck => decide (0 < ck.length))).map PyVal.plist
    else []

/-- The error a reporting step can raise. -/
inductive NestErr : Type where
  | indexError
  | typeError

/-- Python subscription value[k] for the values at hand: list and string
indexing succeed in range and raise IndexError out of range; subscripting
an int or bool raises TypeError. -/
def pyIndex : PyVal → ℕ → Except NestErr PyVal
  | .plist items, k =>
    match items.get? k with
    | some v => .ok v
    | none => .error .indexError
  | .pstr s, k =>
    match s.data.get? k with
    | some ch => .ok (.pstr (String.mk [ch]))
    | none => .error .indexError
  | _, _ => .error .typeError

/-- Python truthiness of the values at hand. -/
def pyTruthy : PyVal → Bool
  | .pstr v => !(v == "")
  | .pint v => !(v == 0)
  | .pbool v => v
  | .plist items => !items.isEmpty

/-- The reporting loop of check_data_for_nested (lines 1482-1487): each
check entry is tested via check[2], and the message is built from check[0]
and level_names[check[1]]; the reported triples carry those pieces. -/
def report_checks (levelNames : List String) :
    List PyVal → Except NestErr (List (PyVal × String × Bool))
  | [] => .ok []
  | ck :: rest =>
    match pyIndex ck 2 with
    | .error err => .error err
    | .ok c2 =>
      match pyIndex ck 0 with
      | .error err => .error err
      | .ok c0 =>
        match pyIndex ck 1 with
        | .error err => .error err
        | .ok c1 =>
          match c1 with
          | .pint k =>
            match levelNames.get? k with
            | none => .error NestErr.indexError
            | some lvl =>
              match report_checks levelNames rest with
              | .error err => .error err
              | .ok tail => .ok ((c0, lvl, pyTruthy c2) :: tail)
          | _ => .error NestErr.typeError

/-- The outer loop over the top-level groups (lines 1473-1487). -/
def reports_for_groups (levelNames : List String) :
    List NestedGroup → Except NestErr (List (PyVal × String × Bool))
  | [] => .ok []
  | g :: rest =>
    match report_checks levelNames
        (structure_check levelNames.length (levelNames.length + 1) g) with
    | .error err => .error err
    | .ok xs =>
      match reports_for_groups levelNames rest with
      | .error err => .error err
      | .ok ys => .ok (xs ++ ys)

/-- check_data_for_nested (lines 1462-1488): short reports for too little
data, then the per-group structure checks; the Bool is nest_good (no
violation reported). -/
def run_nested_check (gd : List (List String)) (levelNames : List String) :
    Except NestErr (Bool × List (PyVal × String × Bool)) :=
  if gd.length < 2 then .ok (false, [])
  else if (topLevelOf gd).length < 2 then .ok (false, [])
  else
    match reports_for_groups levelNames (topLevelOf gd) with
    | .error err => .error err
    | .ok reports => .ok (reports.isEmpty, reports)

/-- Five valid rows over three nesting columns with one singleton group
(C2) at the deepest level under otherwise valid ancestors. -/
def gdC3 : List (List String) :=
  [["A", "B", "C1"], ["A", "B", "C1"], ["A", "B", "C2"],
   ["D", "E", "F"], ["D", "E", "F"]]

/-- Two-level variant with the singleton group C at depth 1: this one the
source reports correctly. -/
def gdC3b : List (List String) :=
  [["A", "B"], ["A", "B"], ["A", "C"], ["D", "E"], ["D", "E"]]

/-- Claim C3 (code bug): with three nesting levels and the singleton group
C2 two levels below the top, structure_check wraps the violation triple in
two list layers (it appends child check lists instead of extending), so the
reporting loop evaluates check[2] on a one-element list and the analysis
raises IndexError instead of reporting the violation; the same shape of
violation one level higher is reported without an exception. -/
theorem C3_nested_check_raises :
    run_nested_check gdC3 ["col1", "col2", "col3"]
      = Except.error NestErr.indexError
    ∧ run_nested_check gdC3b ["col1", "col2"]
      = Except.ok (false, [(PyVal.pstr "C", "col2", true)]) := by
  have hAD : (['A'] : List Char) ≤ ['D'] := by decide
  have hC12 : (['C', '1'] : List Char) ≤ ['C', '2'] := by decide
  have hBC : (['B'] : List Char) ≤ ['C'] := by decide
  constructor <;>
    simp [run_nested_check, reports_for_groups, report_checks, pyIndex,
      pyTruthy, structure_check, topLevelOf, numLevels, find_next_nested_level,
      levelNamesTop, levelNamesChild, topRowsFor, childRowsFor, rowLabel,
      pySortedSet, gdC3, gdC3b, List.insertionSort, List.orderedInsert,
      List.dedup, List.pwFilter, List.range_succ, hAD, hC12, hBC]

end MetaWin
